import Mathlib

/-!
Shallow embedding of `screen_feedback_agent` (audio.py, snapshots.py).

Python floats are modelled as rationals (`ℚ`); Python strings are Lean
`String`s, with the string operations of the source (`str.lower`,
`str.split`, the `in` substring test, `" ".join`) modelled charwise on
`List Char`.  The field `end` of the Python dataclasses is a Lean keyword
and is rendered `stop`.
-/

namespace ScreenFeedback

/-- `SpeechSegment` from audio.py: a span of detected speech.  The Python
field `end` is called `stop` here. -/
structure SpeechSegment where
  start : ℚ
  stop : ℚ
  text : String
deriving DecidableEq, Repr

/-- Charwise lowercasing: Python `str.lower()`. -/
def lowerChars (cs : List Char) : List Char := cs.map Char.toLower

/-- Python's substring test `pat in s`. -/
def subOf (pat s : List Char) : Bool := decide (pat <:+: s)

/-- Helper for `splitWords`: `cur` is the word currently being built, in
reverse order. -/
def splitWordsAux (cur : List Char) : List Char → List (List Char)
  | [] => if cur.isEmpty then [] else [cur.reverse]
  | c :: cs =>
    if c.isWhitespace then
      if cur.isEmpty then splitWordsAux [] cs
      else cur.reverse :: splitWordsAux [] cs
    else splitWordsAux (c :: cur) cs

/-- Python `str.split()`: split on runs of whitespace, dropping empty
pieces. -/
def splitWords (cs : List Char) : List (List Char) := splitWordsAux [] cs

/-- The loop body state of `merge_speech_segments` (audio.py, lines
87-108): `cur` is the running last output interval `merged[-1]`; the
Python loop either mutates it in place (absorb) or appends a fresh
interval (push). -/
def mergeLoop (gap_threshold : ℚ) (cur : SpeechSegment) :
    List SpeechSegment → List SpeechSegment
  | [] => [cur]
  | seg :: rest =>
    if seg.start ≤ cur.stop + gap_threshold then
      mergeLoop gap_threshold
        ⟨cur.start, max cur.stop seg.stop, cur.text ++ " " ++ seg.text⟩ rest
    else cur :: mergeLoop gap_threshold seg rest

/-- `merge_speech_segments` from audio.py. -/
def merge_speech_segments (segments : List SpeechSegment)
    (gap_threshold : ℚ := 1) : List SpeechSegment :=
  match segments with
  | [] => []
  | first :: rest => mergeLoop gap_threshold first rest

/-- `SNAP_KEYWORDS` from snapshots.py. -/
def SNAP_KEYWORDS : List String := ["snap", "screenshot", "capture", "here"]

/-- The body of the innermost loop of `detect_snap_moments` (snapshots.py,
lines 55-64): linear-interpolation timestamp and the 3-word context window
for the word at index `i`. -/
def snapCue (segment : SpeechSegment) (words : List (List Char)) (i : ℕ) :
    ℚ × String :=
  let word_ratio : ℚ := i / max words.length 1
  let timestamp := segment.start + (segment.stop - segment.start) * word_ratio
  let start_idx := i - 3
  let end_idx := min words.length (i + 4)
  let context :=
    (List.intercalate [' '] ((words.drop start_idx).take (end_idx - start_idx))).asString
  (timestamp, context)

/-- `detect_snap_moments` from snapshots.py.  The nested Python loops
append to `snap_moments` in nesting order: segments outermost, keywords
next, word positions innermost. -/
def detect_snap_moments (segments : List SpeechSegment)
    (keywords : List String := SNAP_KEYWORDS) : List (ℚ × String) :=
  segments.flatMap fun segment =>
    let text_lower := lowerChars segment.text.data
    keywords.flatMap fun keyword =>
      if subOf keyword.data text_lower then
        let words := splitWords segment.text.data
        (words.enum.filter fun iw => subOf keyword.data (lowerChars iw.2)).map
          fun iw => snapCue segment words iw.1
      else []

/-- `Snapshot` from snapshots.py: a screenshot captured at a snap keyword
moment.  `image_path` is modelled as a plain path string. -/
structure Snapshot where
  timestamp : ℚ
  image_path : String
  context : String
deriving DecidableEq, Repr

/-- A filesystem state for the cleanup model: `present` are the existing
files, `locked` are files whose deletion raises (e.g. permission denied). -/
structure FS where
  present : List String
  locked : List String
deriving DecidableEq, Repr

/-- `Path.unlink`: deletes the file, raising on a locked path. -/
def unlink (fs : FS) (p : String) : Except String FS :=
  if p ∈ fs.locked then .error ("permission denied: " ++ p)
  else .ok ⟨fs.present.erase p, fs.locked⟩

/-- `cleanup_snapshots` from snapshots.py, lines 134-142: a plain loop with
no exception handler, so the first raising `unlink` aborts the loop and the
exception propagates.  Returns the filesystem state actually reached
together with the propagated error, if any. -/
def cleanup_snapshots (snapshots : List Snapshot) (fs : FS) :
    FS × Option String :=
  match snapshots with
  | [] => (fs, none)
  | snap :: rest =>
    if snap.image_path ∈ fs.present then
      match unlink fs snap.image_path with
      | .error e => (fs, some e)
      | .ok fs2 => cleanup_snapshots rest fs2
    else cleanup_snapshots rest fs

/-- The loop of `extract_all_snapshots` (snapshots.py, lines 124-130) over
the detected snap moments.  `extract_frame` (lines 67-98) is one external
FFmpeg invocation per cue run with `check=True`, so a failure raises and
propagates; it is modelled by the oracle `extract`, mapping a timestamp to
the produced image path or a failure.  The first component of the result
is the trace of extraction calls performed, in order. -/
def extractLoop (extract : ℚ → Except String String) :
    List (ℚ × String) → List ℚ × Except String (List Snapshot)
  | [] => ([], .ok [])
  | (timestamp, context) :: rest =>
    match extract timestamp with
    | .error e => ([timestamp], .error e)
    | .ok image_path =>
      match extractLoop extract rest with
      | (calls, .error e) => (timestamp :: calls, .error e)
      | (calls, .ok snaps) =>
        (timestamp :: calls, .ok (⟨timestamp, image_path, context⟩ :: snaps))

/-- `extract_all_snapshots` from snapshots.py: detects the snap moments and
extracts one frame per cue, in order. -/
def extract_all_snapshots (extract : ℚ → Except String String)
    (segments : List SpeechSegment)
    (keywords : List String := SNAP_KEYWORDS) :
    List ℚ × Except String (List Snapshot) :=
  extractLoop extract (detect_snap_moments segments keywords)

/-! ### Spec-side definition for the merge algorithm

`mergeSpec` renders the specification's words for `merge` (spec §4.1):
seed the output with the first span verbatim; for each subsequent span
compare its start against the running **last output interval**'s end;
absorb on `span.start ≤ lastOutput.end + gapThreshold`, else push. -/

/-- One step of the spec's merge description, acting on the output list. -/
def mergeSpecStep (gapThreshold : ℚ) (out : List SpeechSegment)
    (span : SpeechSegment) : List SpeechSegment :=
  match out.getLast? with
  | none => [span]
  | some lastOutput =>
    if span.start ≤ lastOutput.stop + gapThreshold then
      out.dropLast ++
        [⟨lastOutput.start, max lastOutput.stop span.stop,
          lastOutput.text ++ " " ++ span.text⟩]
    else out ++ [span]

/-- The spec's merge description: seed with the first span, then fold. -/
def mergeSpec (gapThreshold : ℚ) : List SpeechSegment → List SpeechSegment
  | [] => []
  | first :: rest => rest.foldl (mergeSpecStep gapThreshold) [first]

/-! ### Lemmas about the merge loop -/

theorem foldl_mergeSpecStep (gap : ℚ) (rest : List SpeechSegment) :
    ∀ (acc : List SpeechSegment) (cur : SpeechSegment),
      rest.foldl (mergeSpecStep gap) (acc ++ [cur]) = acc ++ mergeLoop gap cur rest := by
  induction rest with
  | nil => intro acc cur; simp [mergeLoop]
  | cons seg rest ih =>
    intro acc cur
    have hstep : mergeSpecStep gap (acc ++ [cur]) seg =
        if seg.start ≤ cur.stop + gap then
          acc ++ [⟨cur.start, max cur.stop seg.stop, cur.text ++ " " ++ seg.text⟩]
        else (acc ++ [cur]) ++ [seg] := by
      simp [mergeSpecStep, List.getLast?_concat, List.dropLast_concat]
    simp only [List.foldl_cons, mergeLoop, hstep]
    by_cases h : seg.start ≤ cur.stop + gap
    · rw [if_pos h, if_pos h, ih]
    · rw [if_neg h, if_neg h, ih]
      simp

theorem mergeLoop_start_eq (gap : ℚ) (rest : List SpeechSegment) :
    ∀ cur : SpeechSegment, ∃ t l', mergeLoop gap cur rest = t :: l' ∧ t.start = cur.start := by
  induction rest with
  | nil => intro cur; exact ⟨cur, [], rfl, rfl⟩
  | cons seg rest ih =>
    intro cur
    simp only [mergeLoop]
    by_cases h : seg.start ≤ cur.stop + gap
    · rw [if_pos h]
      obtain ⟨t, l', heq, hstart⟩ := ih ⟨cur.start, max cur.stop seg.stop, cur.text ++ " " ++ seg.text⟩
      exact ⟨t, l', heq, hstart⟩
    · rw [if_neg h]
      exact ⟨cur, _, rfl, rfl⟩

theorem mergeLoop_chain_sep (gap : ℚ) (rest : List SpeechSegment) :
    ∀ cur, List.Chain' (fun a b => a.stop + gap < b.start) (mergeLoop gap cur rest) := by
  induction rest with
  | nil => intro cur; simp [mergeLoop]
  | cons seg rest ih =>
    intro cur
    simp only [mergeLoop]
    by_cases h : seg.start ≤ cur.stop + gap
    · rw [if_pos h]; exact ih _
    · rw [if_neg h]
      obtain ⟨t, l', heq, hstart⟩ := mergeLoop_start_eq gap rest seg
      rw [heq]
      refine List.Chain'.cons ?_ (heq ▸ ih seg)
      rw [hstart]
      exact lt_of_not_le h

theorem mergeLoop_start_le_stop (gap : ℚ) (rest : List SpeechSegment) :
    ∀ cur, cur.start ≤ cur.stop → (∀ s ∈ rest, s.start ≤ s.stop) →
      ∀ t ∈ mergeLoop gap cur rest, t.start ≤ t.stop := by
  induction rest with
  | nil =>
    intro cur hc _ t ht
    simp only [mergeLoop, List.mem_singleton] at ht
    exact ht ▸ hc
  | cons seg rest ih =>
    intro cur hc hrest t ht
    simp only [mergeLoop] at ht
    by_cases h : seg.start ≤ cur.stop + gap
    · rw [if_pos h] at ht
      exact ih ⟨cur.start, max cur.stop seg.stop, cur.text ++ " " ++ seg.text⟩
        (le_trans hc (le_max_left _ _))
        (fun s hs => hrest s (List.mem_cons_of_mem _ hs)) t ht
    · rw [if_neg h] at ht
      rcases List.mem_cons.mp ht with rfl | ht'
      · exact hc
      · exact ih seg (hrest seg (List.mem_cons_self _ _))
          (fun s hs => hrest s (List.mem_cons_of_mem _ hs)) t ht'

theorem mergeLoop_chain_start (gap : ℚ) (rest : List SpeechSegment) :
    ∀ cur, List.Chain' (fun a b => a.start ≤ b.start) (cur :: rest) →
      List.Chain' (fun a b => a.start ≤ b.start) (mergeLoop gap cur rest) := by
  induction rest with
  | nil => intro cur _; simp [mergeLoop]
  | cons seg rest ih =>
    intro cur hch
    rw [List.chain'_cons] at hch
    obtain ⟨hcs, hch'⟩ := hch
    simp only [mergeLoop]
    by_cases h : seg.start ≤ cur.stop + gap
    · rw [if_pos h]
      apply ih
      cases rest with
      | nil => simp
      | cons r rest' =>
        rw [List.chain'_cons] at hch' ⊢
        exact ⟨le_trans hcs hch'.1, hch'.2⟩
    · rw [if_neg h]
      obtain ⟨t, l', heq, hstart⟩ := mergeLoop_start_eq gap rest seg
      rw [heq]
      exact List.Chain'.cons (by rw [hstart]; exact hcs) (heq ▸ ih seg hch')

theorem chain_sep_pairwise (gap : ℚ) (l : List SpeechSegment) :
    List.Chain' (fun a b => a.stop + gap < b.start) l →
    List.Pairwise (fun a b : SpeechSegment => a.start ≤ b.start) l →
    List.Pairwise (fun a b => a.stop + gap < b.start) l := by
  induction l with
  | nil => intro _ _; exact List.Pairwise.nil
  | cons a t ih =>
    intro hch hpw
    rw [List.pairwise_cons] at hpw
    refine List.Pairwise.cons ?_ (ih hch.tail hpw.2)
    intro b hb
    cases t with
    | nil => cases hb
    | cons c t' =>
      have hac : a.stop + gap < c.start := (List.chain'_cons.mp hch).1
      rcases List.mem_cons.mp hb with rfl | hb'
      · exact hac
      · exact lt_of_lt_of_le hac ((List.pairwise_cons.mp hpw.2).1 b hb')

theorem mergeLoop_of_chain_sep (gap : ℚ) (rest : List SpeechSegment) :
    ∀ cur, List.Chain' (fun a b => a.stop + gap < b.start) (cur :: rest) →
      mergeLoop gap cur rest = cur :: rest := by
  induction rest with
  | nil => intro cur _; rfl
  | cons seg rest ih =>
    intro cur hch
    rw [List.chain'_cons] at hch
    simp only [mergeLoop]
    rw [if_neg (not_le.mpr hch.1), ih seg hch.2]

/-! ### Claim theorems for the segment merger -/

/-- C1: for every non-empty list of spans in non-decreasing start order and
every `gapThreshold ≥ 0`, `merge_speech_segments` seeds its output with the
first span verbatim and then, for each subsequent span, absorbs it into the
last output interval exactly when `span.start ≤ lastOutput.end +
gapThreshold` (inclusive boundary), setting the last interval's end to
`max(lastOutput.end, span.end)` and appending `" " ++ span.text` to its
text, and otherwise pushes the span as a new interval — i.e. it coincides
with `mergeSpec`, the fold of exactly that step.  Moreover `merge [] = []`
and `merge [x] = [⟨x.start, x.end, x.text⟩]`. -/
theorem c1_merge_algorithm (segments : List SpeechSegment) (gapThreshold : ℚ)
    (hne : segments ≠ [])
    (hsorted : List.Chain' (fun a b => a.start ≤ b.start) segments)
    (hgap : 0 ≤ gapThreshold) :
    merge_speech_segments segments gapThreshold = mergeSpec gapThreshold segments ∧
    merge_speech_segments [] gapThreshold = [] ∧
    ∀ x : SpeechSegment,
      merge_speech_segments [x] gapThreshold = [⟨x.start, x.stop, x.text⟩] := by
  refine ⟨?_, rfl, fun x => rfl⟩
  cases segments with
  | nil => rfl
  | cons first rest =>
    show mergeLoop gapThreshold first rest = rest.foldl (mergeSpecStep gapThreshold) [first]
    have := foldl_mergeSpecStep gapThreshold rest [] first
    simpa using this.symm

theorem c1_merge_algorithm_witness :
    merge_speech_segments [⟨0, 3, "Hello"⟩, ⟨7/2, 6, "World"⟩] 1 =
      mergeSpec 1 [⟨0, 3, "Hello"⟩, ⟨7/2, 6, "World"⟩] :=
  (c1_merge_algorithm [⟨0, 3, "Hello"⟩, ⟨7/2, 6, "World"⟩] 1 (by decide)
    (by norm_num [List.chain'_cons, List.chain'_singleton]) (by decide)).1

/-- C4: for every input list with non-decreasing starts, `start ≤ end` per
span, and `gapThreshold ≥ 0`, every adjacent pair of output intervals of
`merge_speech_segments` satisfies `end[i] + gapThreshold < start[i+1]`, and
every output interval satisfies `start ≤ end`. -/
theorem c4_merge_invariants (segments : List SpeechSegment) (gapThreshold : ℚ)
    (hsorted : List.Chain' (fun a b => a.start ≤ b.start) segments)
    (hwf : ∀ s ∈ segments, s.start ≤ s.stop)
    (hgap : 0 ≤ gapThreshold) :
    List.Chain' (fun a b => a.stop + gapThreshold < b.start)
      (merge_speech_segments segments gapThreshold) ∧
    ∀ t ∈ merge_speech_segments segments gapThreshold, t.start ≤ t.stop := by
  cases segments with
  | nil => exact ⟨List.chain'_nil, by intro t ht; cases ht⟩
  | cons first rest =>
    refine ⟨mergeLoop_chain_sep _ _ _, ?_⟩
    exact mergeLoop_start_le_stop _ _ _ (hwf _ (List.mem_cons_self _ _))
      (fun s hs => hwf s (List.mem_cons_of_mem _ hs))

theorem c4_merge_invariants_witness :
    List.Chain' (fun a b => a.stop + 1 < b.start)
      (merge_speech_segments [⟨0, 2, "First"⟩, ⟨5, 7, "Second"⟩] 1) :=
  (c4_merge_invariants [⟨0, 2, "First"⟩, ⟨5, 7, "Second"⟩] 1
    (by norm_num [List.chain'_cons, List.chain'_singleton])
    (by decide) (by decide)).1

/-- C5: for every list of spans in non-decreasing start order and every
`gapThreshold ≥ 0`, `merge_speech_segments` is idempotent (merging the
merge output again with the same threshold returns it unchanged), and the
output intervals are pairwise separated by more than `gapThreshold` and in
particular pairwise non-overlapping. -/
theorem c5_merge_idempotent (segments : List SpeechSegment) (gapThreshold : ℚ)
    (hsorted : List.Chain' (fun a b => a.start ≤ b.start) segments)
    (hgap : 0 ≤ gapThreshold) :
    merge_speech_segments (merge_speech_segments segments gapThreshold) gapThreshold =
      merge_speech_segments segments gapThreshold ∧
    List.Pairwise (fun a b => a.stop + gapThreshold < b.start)
      (merge_speech_segments segments gapThreshold) ∧
    List.Pairwise (fun a b => a.stop < b.start)
      (merge_speech_segments segments gapThreshold) := by
  cases segments with
  | nil => exact ⟨rfl, List.Pairwise.nil, List.Pairwise.nil⟩
  | cons first rest =>
    have hchain : List.Chain' (fun a b => a.stop + gapThreshold < b.start)
        (mergeLoop gapThreshold first rest) := mergeLoop_chain_sep _ _ _
    have hstarts : List.Chain' (fun a b => a.start ≤ b.start)
        (mergeLoop gapThreshold first rest) := mergeLoop_chain_start _ _ _ hsorted
    have hpwstart : List.Pairwise (fun a b : SpeechSegment => a.start ≤ b.start)
        (mergeLoop gapThreshold first rest) := by
      letI : IsTrans SpeechSegment (fun a b => a.start ≤ b.start) :=
        ⟨fun _ _ _ h1 h2 => le_trans h1 h2⟩
      exact List.chain'_iff_pairwise.mp hstarts
    have hpw : List.Pairwise (fun a b => a.stop + gapThreshold < b.start)
        (mergeLoop gapThreshold first rest) :=
      chain_sep_pairwise _ _ hchain hpwstart
    refine ⟨?_, hpw, hpw.imp fun {a b} h => lt_of_le_of_lt (by linarith) h⟩
    obtain ⟨t, l', heq, _⟩ := mergeLoop_start_eq gapThreshold rest first
    show merge_speech_segments (mergeLoop gapThreshold first rest) gapThreshold =
      mergeLoop gapThreshold first rest
    rw [heq]
    exact mergeLoop_of_chain_sep _ _ _ (heq ▸ hchain)

theorem c5_merge_idempotent_witness :
    merge_speech_segments
        (merge_speech_segments [⟨0, 3, "Hello"⟩, ⟨7/2, 6, "World"⟩, ⟨9, 11, "Again"⟩] 1) 1 =
      merge_speech_segments [⟨0, 3, "Hello"⟩, ⟨7/2, 6, "World"⟩, ⟨9, 11, "Again"⟩] 1 :=
  (c5_merge_idempotent [⟨0, 3, "Hello"⟩, ⟨7/2, 6, "World"⟩, ⟨9, 11, "Again"⟩] 1
    (by norm_num [List.chain'_cons, List.chain'_singleton]) (by decide)).1

/-! ### Lemmas about the cue detector -/

theorem pairwise_fst_lt_enumFrom {α : Type} (l : List α) :
    ∀ n : ℕ, List.Pairwise (fun a b : ℕ × α => a.1 < b.1) (List.enumFrom n l) := by
  induction l with
  | nil => intro n; exact List.Pairwise.nil
  | cons x xs ih =>
    intro n
    refine List.Pairwise.cons ?_ (ih (n + 1))
    intro y hy
    exact lt_of_lt_of_le (Nat.lt_succ_self n) (List.le_fst_of_mem_enumFrom hy)

theorem infix_of_mem_splitWordsAux (cs : List Char) :
    ∀ (cur w : List Char), w ∈ splitWordsAux cur cs → w <:+: cur.reverse ++ cs := by
  induction cs with
  | nil =>
    intro cur w hw
    simp only [splitWordsAux] at hw
    by_cases hcur : cur.isEmpty
    · rw [if_pos hcur] at hw; cases hw
    · rw [if_neg hcur, List.mem_singleton] at hw
      subst hw
      exact (List.prefix_append _ _).isInfix
  | cons c cs ih =>
    intro cur w hw
    simp only [splitWordsAux] at hw
    by_cases hws : c.isWhitespace
    · rw [if_pos hws] at hw
      by_cases hcur : cur.isEmpty
      · rw [if_pos hcur] at hw
        have h1 : w <:+: cs := by simpa using ih [] w hw
        exact h1.trans
          (((List.suffix_cons c cs).trans (List.suffix_append cur.reverse (c :: cs))).isInfix)
      · rw [if_neg hcur] at hw
        rcases List.mem_cons.mp hw with rfl | hw'
        · exact (List.prefix_append _ _).isInfix
        · have h1 : w <:+: cs := by simpa using ih [] w hw'
          exact h1.trans
            (((List.suffix_cons c cs).trans (List.suffix_append cur.reverse (c :: cs))).isInfix)
    · rw [if_neg hws] at hw
      have h1 := ih (c :: cur) w hw
      simpa using h1

theorem infix_of_mem_splitWords {cs w : List Char} (hw : w ∈ splitWords cs) : w <:+: cs := by
  simpa using infix_of_mem_splitWordsAux cs [] w hw

theorem subOf_eq_true_iff {pat s : List Char} : subOf pat s = true ↔ pat <:+: s := by
  simp [subOf]

/-- A word-level keyword match implies the segment-level guard
`keyword in text.lower()` of the source: words are infixes of the text and
charwise lowercasing preserves infixes. -/
theorem guard_of_word_match {k w cs : List Char} (hw : w ∈ splitWords cs)
    (hm : subOf k (lowerChars w) = true) : subOf k (lowerChars cs) = true := by
  rw [subOf_eq_true_iff] at hm ⊢
  exact hm.trans ((infix_of_mem_splitWords hw).map Char.toLower)

/-- Membership characterization of `detect_snap_moments`: the produced cues
are exactly the `snapCue`s of the word positions whose (lowercased) word
contains a keyword verbatim. -/
theorem mem_detect_iff (segments : List SpeechSegment) (keywords : List String)
    (p : ℚ × String) :
    p ∈ detect_snap_moments segments keywords ↔
      ∃ seg ∈ segments, ∃ k ∈ keywords, ∃ iw ∈ (splitWords seg.text.data).enum,
        subOf k.data (lowerChars iw.2) = true ∧
        p = snapCue seg (splitWords seg.text.data) iw.1 := by
  constructor
  · intro hp
    simp only [detect_snap_moments, List.mem_flatMap] at hp
    obtain ⟨seg, hseg, hp1⟩ := hp
    obtain ⟨k, hk, hp2⟩ := hp1
    by_cases hg : subOf k.data (lowerChars seg.text.data) = true
    · rw [if_pos hg] at hp2
      simp only [List.mem_map, List.mem_filter] at hp2
      obtain ⟨iw, ⟨hiw, hm⟩, heq⟩ := hp2
      exact ⟨seg, hseg, k, hk, iw, hiw, hm, heq.symm⟩
    · rw [if_neg hg] at hp2
      cases hp2
  · rintro ⟨seg, hseg, k, hk, iw, hiw, hm, rfl⟩
    have hw : iw.2 ∈ splitWords seg.text.data := List.snd_mem_of_mem_enumFrom hiw
    have hg : subOf k.data (lowerChars seg.text.data) = true := guard_of_word_match hw hm
    simp only [detect_snap_moments, List.mem_flatMap]
    refine ⟨seg, hseg, k, hk, ?_⟩
    rw [if_pos hg]
    simp only [List.mem_map, List.mem_filter]
    exact ⟨iw, ⟨hiw, hm⟩, rfl⟩

/-- Concrete evaluation of the spec's worked example: one cue, at 4.0
(word index 2 of 5 words, ratio 0.4 of a 10-second span). -/
theorem detect_example_eval :
    detect_snap_moments [⟨0, 10, "word1 word2 snap word4 word5"⟩] SNAP_KEYWORDS =
      [(4, "word1 word2 snap word4 word5")] := by
  simp +decide [detect_snap_moments, SNAP_KEYWORDS, snapCue, splitWords, splitWordsAux,
    subOf, lowerChars, List.enum, List.enumFrom, List.intercalate]
  norm_num

/-! ### Claim theorems for the cue detector -/

/-- C2: every cue produced by `detect_snap_moments` carries the timestamp
`span.start + (span.end - span.start) * (i / max wordCount 1)` of some word
index `i` whose word matches a keyword; and on the single span
`(0, 10, "word1 word2 snap word4 word5")` with the default keywords, detect
returns exactly one cue, with timestamp exactly 4 (word index 2 of 5 words,
ratio 0.4 of the 10-second duration). -/
theorem c2_timestamp_interpolation :
    (∀ (segments : List SpeechSegment) (keywords : List String) (t : ℚ) (c : String),
      (t, c) ∈ detect_snap_moments segments keywords →
      ∃ seg ∈ segments, ∃ k ∈ keywords, ∃ i : ℕ, ∃ w : List Char,
        (splitWords seg.text.data)[i]? = some w ∧
        subOf k.data (lowerChars w) = true ∧
        t = seg.start + (seg.stop - seg.start) *
          (i / max (splitWords seg.text.data).length 1)) ∧
    detect_snap_moments [⟨0, 10, "word1 word2 snap word4 word5"⟩] SNAP_KEYWORDS =
      [(4, "word1 word2 snap word4 word5")] := by
  constructor
  · intro segments keywords t c hp
    obtain ⟨seg, hseg, k, hk, iw, hiw, hm, heq⟩ := (mem_detect_iff _ _ _).mp hp
    refine ⟨seg, hseg, k, hk, iw.1, iw.2, List.mem_enum_iff_getElem?.mp hiw, hm, ?_⟩
    have := congrArg Prod.fst heq
    simpa [snapCue] using this
  · exact detect_example_eval

theorem c2_timestamp_interpolation_witness :
    ∃ seg ∈ [(⟨0, 10, "word1 word2 snap word4 word5"⟩ : SpeechSegment)],
      ∃ k ∈ SNAP_KEYWORDS, ∃ i : ℕ, ∃ w : List Char,
        (splitWords seg.text.data)[i]? = some w ∧
        subOf k.data (lowerChars w) = true ∧
        (4 : ℚ) = seg.start + (seg.stop - seg.start) *
          (i / max (splitWords seg.text.data).length 1) :=
  c2_timestamp_interpolation.1 _ _ 4 "word1 word2 snap word4 word5"
    (by rw [c2_timestamp_interpolation.2]; exact List.mem_singleton.mpr rfl)


/-- C10 (implicit): for a span with `start ≤ end`, every cue timestamp that
`detect_snap_moments` produces from that span lies inside the span's own
window: `start ≤ timestamp ≤ end`, and strictly `timestamp < end` whenever
`end > start`, because the interpolation ratio `i / max wordCount 1` is at
most `(wordCount - 1) / wordCount < 1`. -/
theorem c10_timestamp_in_window (keywords : List String) (seg : SpeechSegment)
    (hse : seg.start ≤ seg.stop) :
    ∀ t c, (t, c) ∈ detect_snap_moments [seg] keywords →
      seg.start ≤ t ∧ t ≤ seg.stop ∧ (seg.start < seg.stop → t < seg.stop) := by
  intro t c hp
  obtain ⟨seg2, hseg2, k, hk, iw, hiw, hm, heq⟩ := (mem_detect_iff _ _ _).mp hp
  rw [List.mem_singleton] at hseg2
  subst hseg2
  have hfst : t = seg2.start + (seg2.stop - seg2.start) *
      (iw.1 / max (splitWords seg2.text.data).length 1) := by
    have := congrArg Prod.fst heq
    simpa [snapCue] using this
  have hin : iw.1 < (splitWords seg2.text.data).length := by
    simpa using List.fst_lt_add_of_mem_enumFrom hiw
  have hmax : max (splitWords seg2.text.data).length 1 = (splitWords seg2.text.data).length :=
    Nat.max_eq_left (by omega)
  have hnpos : (0 : ℚ) < ((splitWords seg2.text.data).length : ℚ) := by
    have h0 : 0 < (splitWords seg2.text.data).length := Nat.lt_of_le_of_lt (Nat.zero_le _) hin
    exact_mod_cast h0
  have hr0 : 0 ≤ (iw.1 : ℚ) / ((max (splitWords seg2.text.data).length 1 : ℕ) : ℚ) :=
    div_nonneg (Nat.cast_nonneg _) (Nat.cast_nonneg _)
  have hr1 : (iw.1 : ℚ) / ((max (splitWords seg2.text.data).length 1 : ℕ) : ℚ) < 1 := by
    rw [hmax, div_lt_one hnpos]
    exact_mod_cast hin
  have hd : 0 ≤ seg2.stop - seg2.start := sub_nonneg.mpr hse
  refine ⟨?_, ?_, ?_⟩
  · have := mul_nonneg hd hr0
    rw [hfst]; linarith
  · have := mul_le_mul_of_nonneg_left hr1.le hd
    rw [hfst]; linarith [this]
  · intro hlt
    have hdpos : 0 < seg2.stop - seg2.start := by linarith
    have := mul_lt_mul_of_pos_left hr1 hdpos
    rw [hfst]; linarith [this]

theorem c10_timestamp_in_window_witness :
    (0 : ℚ) ≤ 4 ∧ (4 : ℚ) ≤ 10 ∧ ((0 : ℚ) < 10 → (4 : ℚ) < 10) := by
  have h := c10_timestamp_in_window SNAP_KEYWORDS
    ⟨0, 10, "word1 word2 snap word4 word5"⟩ (by norm_num) 4
    "word1 word2 snap word4 word5"
    (by rw [detect_example_eval]; exact List.mem_singleton.mpr rfl)
  exact h

/-- C8: every cue `(t, c)` arises as `snapCue` at the triggering word index
`i` — the position of a word that matches one of the keywords — and its
context `c` is the space-joined slice of the span's words from
`max(0, i - 3)` (rendered with truncated subtraction as `i - 3`) up to
exclusive `min(wordCount, i + 4)`; that slice contains the triggering word
itself and has at most `2*3 + 1 = 7` words. -/
theorem c8_context_window :
    ∀ (segments : List SpeechSegment) (keywords : List String) (t : ℚ) (c : String),
      (t, c) ∈ detect_snap_moments segments keywords →
      ∃ seg ∈ segments, ∃ k ∈ keywords, ∃ i : ℕ, ∃ w : List Char,
        (splitWords seg.text.data)[i]? = some w ∧
        subOf k.data (lowerChars w) = true ∧
        (t, c) = snapCue seg (splitWords seg.text.data) i ∧
        c = (List.intercalate [' ']
          (((splitWords seg.text.data).drop (i - 3)).take
            (min (splitWords seg.text.data).length (i + 4) - (i - 3)))).asString ∧
        w ∈ ((splitWords seg.text.data).drop (i - 3)).take
          (min (splitWords seg.text.data).length (i + 4) - (i - 3)) ∧
        (((splitWords seg.text.data).drop (i - 3)).take
          (min (splitWords seg.text.data).length (i + 4) - (i - 3))).length ≤ 7 := by
  intro segments keywords t c hp
  obtain ⟨seg, hseg, k, hk, iw, hiw, hm, heq⟩ := (mem_detect_iff _ _ _).mp hp
  have hin : iw.1 < (splitWords seg.text.data).length := by
    simpa using List.fst_lt_add_of_mem_enumFrom hiw
  have hw : (splitWords seg.text.data)[iw.1]? = some iw.2 :=
    List.mem_enum_iff_getElem?.mp hiw
  have hbi : iw.1 < min (splitWords seg.text.data).length (iw.1 + 4) :=
    lt_min hin (by omega)
  have hb2 : min (splitWords seg.text.data).length (iw.1 + 4) ≤
      (splitWords seg.text.data).length := min_le_left _ _
  have hb4 : min (splitWords seg.text.data).length (iw.1 + 4) ≤ iw.1 + 4 :=
    min_le_right _ _
  refine ⟨seg, hseg, k, hk, iw.1, iw.2, hw, hm, heq, ?_, ?_, ?_⟩
  · have := congrArg Prod.snd heq
    simpa [snapCue] using this
  · have hlen : iw.1 - (iw.1 - 3) <
        (((splitWords seg.text.data).drop (iw.1 - 3)).take
          (min (splitWords seg.text.data).length (iw.1 + 4) - (iw.1 - 3))).length := by
      rw [List.length_take, List.length_drop]
      omega
    have hval : (((splitWords seg.text.data).drop (iw.1 - 3)).take
        (min (splitWords seg.text.data).length (iw.1 + 4) - (iw.1 - 3)))[iw.1 - (iw.1 - 3)] = iw.2 := by
      rw [List.getElem_take, List.getElem_drop]
      obtain ⟨hh, hval2⟩ := List.getElem?_eq_some.mp hw
      have hidx : (iw.1 - 3) + (iw.1 - (iw.1 - 3)) = iw.1 := by omega
      simp only [hidx]
      exact hval2
    exact hval ▸ List.getElem_mem hlen
  · rw [List.length_take]
    exact le_trans (min_le_left _ _) (by omega)

theorem c8_context_window_witness :
    ∃ seg ∈ [(⟨0, 10, "word1 word2 snap word4 word5"⟩ : SpeechSegment)],
      ∃ k ∈ SNAP_KEYWORDS, ∃ i : ℕ, ∃ w : List Char,
        (splitWords seg.text.data)[i]? = some w ∧
        subOf k.data (lowerChars w) = true ∧
        ((4 : ℚ), "word1 word2 snap word4 word5") =
          snapCue seg (splitWords seg.text.data) i ∧
        "word1 word2 snap word4 word5" = (List.intercalate [' ']
          (((splitWords seg.text.data).drop (i - 3)).take
            (min (splitWords seg.text.data).length (i + 4) - (i - 3)))).asString ∧
        w ∈ ((splitWords seg.text.data).drop (i - 3)).take
          (min (splitWords seg.text.data).length (i + 4) - (i - 3)) ∧
        (((splitWords seg.text.data).drop (i - 3)).take
          (min (splitWords seg.text.data).length (i + 4) - (i - 3))).length ≤ 7 :=
  c8_context_window _ _ 4 "word1 word2 snap word4 word5"
    (by rw [detect_example_eval]; exact List.mem_singleton.mpr rfl)


/-- Concrete evaluation: on `(0, 3, "capture then snap")` with the default
keywords the cue for `"snap"` (word index 2, timestamp 2) precedes the cue
for `"capture"` (word index 0, timestamp 0), because the loop iterates
keywords before word positions. -/
theorem detect_capture_snap_eval :
    detect_snap_moments [⟨0, 3, "capture then snap"⟩] SNAP_KEYWORDS =
      [(2, "capture then snap"), (0, "capture then snap")] := by
  simp +decide [detect_snap_moments, SNAP_KEYWORDS, snapCue, splitWords, splitWordsAux,
    subOf, lowerChars, List.enum, List.enumFrom, List.intercalate]
  norm_num

/-- C3 counterexample: the detector loops keyword-major, so within a single
span the cues do NOT appear in left-to-right word order.  On the span
`(0, 3, "capture then snap")` with the default keywords, the keyword
`"snap"` is scanned before `"capture"`, so the cue at word index 2
(timestamp 2) precedes the cue at word index 0 (timestamp 0), and the
timestamp sequence is not sorted even though the span is well-formed. -/
theorem c3_word_order_counterexample :
    detect_snap_moments [⟨0, 3, "capture then snap"⟩] SNAP_KEYWORDS =
      [(2, "capture then snap"), (0, "capture then snap")] ∧
    ¬ List.Sorted (· ≤ ·)
      ((detect_snap_moments [⟨0, 3, "capture then snap"⟩] SNAP_KEYWORDS).map Prod.fst) := by
  refine ⟨detect_capture_snap_eval, ?_⟩
  rw [detect_capture_snap_eval]
  simp [List.sorted_cons]

/-- C3 (amended): the cue list follows scan order over the spans; within a
single span the cues are grouped by keyword in keyword-list order, and only
within one keyword do they follow left-to-right word order (non-decreasing
timestamps for a well-formed span); a word matching two distinct keywords
yields two cues from the same word position (no deduplication). -/
theorem c3_scan_order_amended :
    (∀ (keywords : List String) (l1 l2 : List SpeechSegment),
      detect_snap_moments (l1 ++ l2) keywords =
        detect_snap_moments l1 keywords ++ detect_snap_moments l2 keywords) ∧
    (∀ (seg : SpeechSegment) (k1 k2 : List String),
      detect_snap_moments [seg] (k1 ++ k2) =
        detect_snap_moments [seg] k1 ++ detect_snap_moments [seg] k2) ∧
    (∀ (seg : SpeechSegment) (k : String), seg.start ≤ seg.stop →
      List.Sorted (· ≤ ·) ((detect_snap_moments [seg] [k]).map Prod.fst)) ∧
    detect_snap_moments [⟨0, 1, "snapshot"⟩] ["snap", "shot"] =
      [(0, "snapshot"), (0, "snapshot")] := by
  refine ⟨?_, ?_, ?_, ?_⟩
  · intro keywords l1 l2
    simp [detect_snap_moments]
  · intro seg k1 k2
    simp [detect_snap_moments]
  · intro seg k hse
    simp only [detect_snap_moments, List.flatMap_cons, List.flatMap_nil, List.append_nil]
    by_cases hg : subOf k.data (lowerChars seg.text.data) = true
    · rw [if_pos hg, List.map_map]
      have hpw : List.Pairwise (fun a b : ℕ × List Char => a.1 < b.1)
          (((splitWords seg.text.data).enum).filter
            fun iw => subOf k.data (lowerChars iw.2)) :=
        (pairwise_fst_lt_enumFrom (splitWords seg.text.data) 0).filter _
      rw [List.Sorted, List.pairwise_map]
      refine hpw.imp ?_
      intro a b hab
      show (snapCue seg (splitWords seg.text.data) a.1).1 ≤
        (snapCue seg (splitWords seg.text.data) b.1).1
      simp only [snapCue]
      have hd : (0 : ℚ) ≤ seg.stop - seg.start := sub_nonneg.mpr hse
      have hm : ((max (splitWords seg.text.data).length 1 : ℕ) : ℚ) > 0 := by
        have : 1 ≤ max (splitWords seg.text.data).length 1 := le_max_right _ _
        exact_mod_cast Nat.lt_of_lt_of_le Nat.zero_lt_one this
      have hr : (a.1 : ℚ) / ((max (splitWords seg.text.data).length 1 : ℕ) : ℚ) ≤
          (b.1 : ℚ) / ((max (splitWords seg.text.data).length 1 : ℕ) : ℚ) := by
        apply div_le_div_of_nonneg_right ?_ hm.le
        · exact_mod_cast hab.le
      have := mul_le_mul_of_nonneg_left hr hd
      linarith
    · rw [if_neg hg]
      simp
  · simp +decide [detect_snap_moments, snapCue, splitWords, splitWordsAux,
      subOf, lowerChars, List.enum, List.enumFrom, List.intercalate]

theorem c3_scan_order_amended_witness :
    List.Sorted (· ≤ ·)
      ((detect_snap_moments [⟨0, 3, "capture then snap"⟩] ["snap"]).map Prod.fst) :=
  c3_scan_order_amended.2.2.1 ⟨0, 3, "capture then snap"⟩ "snap" (by norm_num)

/-- C7 counterexample: the source lowercases only the word, not the
keyword, so keyword matching is NOT case-insensitive in the keyword: the
keyword `"SNAP"` is a case-insensitive substring of the word `"snap"`, yet
`detect_snap_moments` produces no cue for it. -/
theorem c7_case_insensitive_counterexample :
    detect_snap_moments [⟨0, 1, "snap"⟩] ["SNAP"] = [] ∧
    subOf (lowerChars "SNAP".data) (lowerChars "snap".data) = true := by
  constructor
  · simp +decide [detect_snap_moments, snapCue, splitWords, splitWordsAux,
      subOf, lowerChars, List.enum, List.enumFrom]
  · decide

/-- C7 (amended): matching lowercases only the transcribed text, never the
keyword: a cue is produced for a word `w` and keyword `k` exactly when `k`
occurs verbatim as a substring of the lowercased `w` — case-insensitive in
the transcript but case-sensitive in the keyword.  With the all-lowercase
default keywords, `"SNAP this Capture THAT"` yields exactly 2 cues (one per
keyword hit). -/
theorem c7_matching_amended :
    (∀ (segments : List SpeechSegment) (keywords : List String) (p : ℚ × String),
      p ∈ detect_snap_moments segments keywords ↔
        ∃ seg ∈ segments, ∃ k ∈ keywords, ∃ iw ∈ (splitWords seg.text.data).enum,
          subOf k.data (lowerChars iw.2) = true ∧
          p = snapCue seg (splitWords seg.text.data) iw.1) ∧
    detect_snap_moments [⟨0, 5, "SNAP this Capture THAT"⟩] SNAP_KEYWORDS =
      [(0, "SNAP this Capture THAT"), (5/2, "SNAP this Capture THAT")] := by
  refine ⟨mem_detect_iff, ?_⟩
  simp +decide [detect_snap_moments, SNAP_KEYWORDS, snapCue, splitWords, splitWordsAux,
    subOf, lowerChars, List.enum, List.enumFrom, List.intercalate]
  norm_num

theorem c7_matching_amended_witness :
    ∃ seg ∈ [(⟨0, 5, "SNAP this Capture THAT"⟩ : SpeechSegment)],
      ∃ k ∈ SNAP_KEYWORDS, ∃ iw ∈ (splitWords seg.text.data).enum,
        subOf k.data (lowerChars iw.2) = true ∧
        ((0 : ℚ), "SNAP this Capture THAT") = snapCue seg (splitWords seg.text.data) iw.1 :=
  (c7_matching_amended.1 _ _ _).mp
    (by rw [c7_matching_amended.2]; exact List.mem_cons_self _ _)


/-! ### Claim theorems for the materializer and cleanup -/

theorem extractLoop_ok (extract : ℚ → Except String String) :
    ∀ cues : List (ℚ × String), (∀ cue ∈ cues, ∃ p, extract cue.1 = .ok p) →
      (extractLoop extract cues).1 = cues.map Prod.fst ∧
      ∃ snaps, (extractLoop extract cues).2 = .ok snaps ∧
        snaps.map (fun s => (s.timestamp, s.context)) = cues := by
  intro cues
  induction cues with
  | nil => intro _; exact ⟨rfl, [], rfl, rfl⟩
  | cons cue rest ih =>
    intro h
    obtain ⟨p, hp⟩ := h cue (List.mem_cons_self _ _)
    obtain ⟨htrace, snaps, hres, hmap⟩ := ih fun c hc => h c (List.mem_cons_of_mem _ hc)
    rcases hE : extractLoop extract rest with ⟨calls, res⟩
    rw [hE] at htrace hres
    simp only at htrace hres
    subst hres
    obtain ⟨t, c⟩ := cue
    refine ⟨?_, ⟨t, p, c⟩ :: snaps, ?_, ?_⟩
    · simp [extractLoop, hp, hE, htrace]
    · simp [extractLoop, hp, hE]
    · simp [hmap]

theorem extractLoop_err (extract : ℚ → Except String String) :
    ∀ (pre : List (ℚ × String)) (cue : ℚ × String) (post : List (ℚ × String)) (e : String),
      (∀ c ∈ pre, ∃ p, extract c.1 = .ok p) → extract cue.1 = .error e →
      (extractLoop extract (pre ++ cue :: post)).1 = pre.map Prod.fst ++ [cue.1] ∧
      (extractLoop extract (pre ++ cue :: post)).2 = .error e := by
  intro pre
  induction pre with
  | nil =>
    intro cue post e _ herr
    obtain ⟨t, c⟩ := cue
    constructor <;> simp [extractLoop, herr]
  | cons hd pre ih =>
    intro cue post e h herr
    obtain ⟨p, hp⟩ := h hd (List.mem_cons_self _ _)
    obtain ⟨h1, h2⟩ := ih cue post e (fun c hc => h c (List.mem_cons_of_mem _ hc)) herr
    rcases hE : extractLoop extract (pre ++ cue :: post) with ⟨calls, res⟩
    rw [hE] at h1 h2
    simp only at h1 h2
    subst h2
    obtain ⟨t, c⟩ := hd
    constructor <;> simp [extractLoop, hp, hE, h1]

/-- C9: `extract_all_snapshots` performs extraction calls strictly in cue
order, one call per cue; with zero cues it performs no calls and returns
the empty list; if all calls succeed the calls are exactly the cue
timestamps in order and one Snapshot per cue is returned; if a cue's call
fails, the calls are exactly those for the preceding cues plus the failing
one (no retry, nothing after it), and the whole call fails with that very
error — no partial result. -/
theorem c9_materialize_policy (extract : ℚ → Except String String)
    (segments : List SpeechSegment) (keywords : List String) :
    (detect_snap_moments segments keywords = [] →
      extract_all_snapshots extract segments keywords = ([], .ok [])) ∧
    ((∀ cue ∈ detect_snap_moments segments keywords, ∃ p, extract cue.1 = .ok p) →
      (extract_all_snapshots extract segments keywords).1 =
        (detect_snap_moments segments keywords).map Prod.fst ∧
      ∃ snaps, (extract_all_snapshots extract segments keywords).2 = .ok snaps ∧
        snaps.map (fun s => (s.timestamp, s.context)) =
          detect_snap_moments segments keywords) ∧
    (∀ (pre post : List (ℚ × String)) (cue : ℚ × String) (e : String),
      detect_snap_moments segments keywords = pre ++ cue :: post →
      (∀ c ∈ pre, ∃ p, extract c.1 = .ok p) →
      extract cue.1 = .error e →
      (extract_all_snapshots extract segments keywords).1 =
        pre.map Prod.fst ++ [cue.1] ∧
      (extract_all_snapshots extract segments keywords).2 = .error e) := by
  refine ⟨?_, ?_, ?_⟩
  · intro hdet
    show extractLoop extract (detect_snap_moments segments keywords) = ([], .ok [])
    rw [hdet]
    rfl
  · intro h
    exact extractLoop_ok extract _ h
  · intro pre post cue e hdet h herr
    have := extractLoop_err extract pre cue post e h herr
    show (extractLoop extract (detect_snap_moments segments keywords)).1 = _ ∧
      (extractLoop extract (detect_snap_moments segments keywords)).2 = _
    rw [hdet]
    exact this

/-- A concrete extraction oracle that fails exactly at timestamp 0. -/
def exBoom : ℚ → Except String String :=
  fun t => if t = 0 then .error "boom" else .ok "p.png"

theorem c9_materialize_policy_witness :
    (extract_all_snapshots exBoom [⟨0, 3, "capture then snap"⟩] SNAP_KEYWORDS).1 =
      [2, 0] ∧
    (extract_all_snapshots exBoom [⟨0, 3, "capture then snap"⟩] SNAP_KEYWORDS).2 =
      .error "boom" ∧
    extract_all_snapshots exBoom [] SNAP_KEYWORDS = ([], .ok []) := by
  have h := (c9_materialize_policy exBoom [⟨0, 3, "capture then snap"⟩] SNAP_KEYWORDS).2.2
    [(2, "capture then snap")] [] (0, "capture then snap") "boom"
    (by rw [detect_capture_snap_eval]; rfl)
    (by
      intro c hc
      rw [List.mem_singleton] at hc
      subst hc
      exact ⟨"p.png", by norm_num [exBoom]⟩)
    (by simp [exBoom])
  have h0 := (c9_materialize_policy exBoom [] SNAP_KEYWORDS).1 rfl
  refine ⟨?_, h.2, h0⟩
  rw [h.1]
  rfl

/-- C6 (code observation): `cleanup_snapshots` deletes each present file
and silently skips a Capture whose file is already missing; but there is no
exception handling, so when deleting the first Capture's file raises
(permission denied) the loop aborts: the remaining Capture's file is never
attempted and survives, and the raw single error propagates instead of an
aggregated best-effort failure. -/
theorem c6_cleanup_aborts_on_first_error :
    cleanup_snapshots [⟨1, "a.png", "c1"⟩, ⟨2, "b.png", "c2"⟩]
        ⟨["a.png", "b.png"], ["a.png"]⟩ =
      (⟨["a.png", "b.png"], ["a.png"]⟩, some ("permission denied: " ++ "a.png")) ∧
    "b.png" ∈ (cleanup_snapshots [⟨1, "a.png", "c1"⟩, ⟨2, "b.png", "c2"⟩]
        ⟨["a.png", "b.png"], ["a.png"]⟩).1.present ∧
    cleanup_snapshots [⟨1, "gone.png", "c"⟩] ⟨[], []⟩ = (⟨[], []⟩, none) ∧
    cleanup_snapshots [⟨1, "x.png", "c"⟩] ⟨["x.png"], []⟩ = (⟨[], []⟩, none) := by
  refine ⟨?_, ?_, ?_, ?_⟩ <;> decide

end ScreenFeedback
